import Mathlib

/-!
Verification of the `linalg` dense-matrix library.

Shallow embedding of the C++ sources:
* `Mat α` embeds `Matrix<T>` from `src/include/lin_alg/Matrix.hpp`: a row-major
  matrix stored as a flat buffer (`std::vector<T>`), the element at row `r`,
  column `c` sitting at index `r * cols + c`.
* `Rational` embeds the exact scalar from `src/include/lin_alg/Rational.hpp`.

Machine loops (`rref_stats`' pivot loop, pivot search, the elimination sweep,
the `gcd` loop of `Rational::reduce`) are translated with an explicit iteration
bound (`fuel`).  Every call site passes a bound that provably suffices — the
fuel-irrelevance theorems below discharge exactly the termination claim of the
specification — so the bounded functions compute the same results as the C++
loops while remaining structurally recursive (hence kernel-computable).

Errors (`throw std::invalid_argument` / `throw std::out_of_range`) are embedded
as `Except MErr` results; the in-place row primitives are embedded as functions
returning the post-state of the matrix together with an optional error, so that
"a failed call makes no partial mutation" is expressible.
-/

/-- The two error conditions of the library (`std::invalid_argument` and
`std::out_of_range`). -/
inductive MErr where
  | invalidArgument
  | outOfRange
deriving DecidableEq

deriving instance DecidableEq for Except

/-- Embedding of `Matrix<T>`: row count `_rows`, column count `_cols`, and the
contiguous row-major buffer `_data`. -/
structure Mat (α : Type) where
  rows : Nat
  cols : Nat
  data : List α
deriving DecidableEq

namespace Mat

variable {α : Type}

/-- Reading the buffer at flat index `r * cols + c`, the location used by every
element access in the source (`_data[r * _cols + c]`).  Out-of-range flat reads
return the default value `0`; the source never performs them on well-formed
matrices. -/
def entry [Zero α] (m : Mat α) (r c : Nat) : α :=
  m.data.getD (r * m.cols + c) 0

/-- The flat-list constructor `Matrix(rows, cols, initializer)`
(Matrix.hpp:399-404): stores the initializer as the row-major buffer after
checking that no dimension is zero and that the list has length
`rows * cols`. -/
def mk_flat [Zero α] (rows cols : Nat) (init : List α) : Except MErr (Mat α) :=
  if rows = 0 ∨ cols = 0 then .error .invalidArgument
  else if init.length ≠ rows * cols then .error .invalidArgument
  else .ok ⟨rows, cols, init⟩

/-- Bounds-checked element access `Matrix::at(r, c)` (Matrix.hpp:516-521):
throws `std::out_of_range` when `r ≥ rows` or `c ≥ cols`, otherwise reads
`_data[r * _cols + c]`. -/
def at_ [Zero α] (m : Mat α) (r c : Nat) : Except MErr α :=
  if r ≥ m.rows ∨ c ≥ m.cols then .error .outOfRange
  else .ok (entry m r c)

/-- `Matrix::operator==` (Matrix.hpp:497-501): row count, column count and the
underlying buffers must all agree. -/
def matEq [DecidableEq α] (a b : Mat α) : Bool :=
  decide (a.rows = b.rows) && decide (a.cols = b.cols) && decide (a.data = b.data)

/-- `Matrix::operator+` (Matrix.hpp:469-485): element-wise sum after the
dimension check. -/
def matAdd [Zero α] [Add α] (a b : Mat α) : Except MErr (Mat α) :=
  if a.rows ≠ b.rows ∨ a.cols ≠ b.cols then .error .invalidArgument
  else .ok ⟨a.rows, a.cols, List.zipWith (fun x y => x + y) a.data b.data⟩

/-- `Matrix::operator*` for matrices (Matrix.hpp:425-447): checks
`cols() != other.rows()`, then computes `(AB)_ij = Σ_k A_ik * B_kj`, the sum
starting from the default value `T{}`. -/
def matMul [Zero α] [Add α] [Mul α] (a b : Mat α) : Except MErr (Mat α) :=
  if a.cols ≠ b.rows then .error .invalidArgument
  else .ok ⟨a.rows, b.cols,
    (List.range (a.rows * b.cols)).map (fun k =>
      let i := k / b.cols
      let j := k % b.cols
      (List.range a.cols).foldl (fun s t => s + entry a i t * entry b t j) 0)⟩

/-- The mutation performed by `Matrix::swap_rows` (Matrix.hpp:544-556) once the
bounds check has passed: rows `r1` and `r2` exchange all their elements. -/
def swapRowsCore [Zero α] (m : Mat α) (r1 r2 : Nat) : Mat α :=
  { m with data := (List.range (m.rows * m.cols)).map (fun k =>
      let r := k / m.cols
      let c := k % m.cols
      if r = r1 then entry m r2 c
      else if r = r2 then entry m r1 c
      else entry m r c) }

/-- The mutation performed by `Matrix::scale_row` (Matrix.hpp:558-568) once the
bounds check has passed: every element `x` of row `r` becomes `x * scalar`
(`x *= scalar`). -/
def scaleRowCore [Zero α] [Mul α] (m : Mat α) (r : Nat) (scalar : α) : Mat α :=
  { m with data := (List.range (m.rows * m.cols)).map (fun k =>
      let i := k / m.cols
      let c := k % m.cols
      if i = r then entry m i c * scalar else entry m i c) }

/-- The mutation performed by `Matrix::add_row` (Matrix.hpp:570-587) once the
bounds check has passed: element-wise `row[r2] += scalar * row[r1]`. -/
def addRowCore [Zero α] [Add α] [Mul α] (m : Mat α) (r1 r2 : Nat) (scalar : α) : Mat α :=
  { m with data := (List.range (m.rows * m.cols)).map (fun k =>
      let i := k / m.cols
      let c := k % m.cols
      if i = r2 then entry m i c + scalar * entry m r1 c else entry m i c) }

/-- `Matrix::swap_rows` (Matrix.hpp:544-556): validates both indices before any
mutation; a failing call leaves the matrix unchanged and reports
`std::out_of_range`. -/
def swap_rows [Zero α] (m : Mat α) (r1 r2 : Nat) : Mat α × Option MErr :=
  if r1 ≥ m.rows ∨ r2 ≥ m.rows then (m, some .outOfRange)
  else (swapRowsCore m r1 r2, none)

/-- `Matrix::scale_row` (Matrix.hpp:558-568): validates the index before any
mutation. -/
def scale_row [Zero α] [Mul α] (m : Mat α) (r : Nat) (scalar : α) : Mat α × Option MErr :=
  if r ≥ m.rows then (m, some .outOfRange)
  else (scaleRowCore m r scalar, none)

/-- `Matrix::add_row` (Matrix.hpp:570-587): validates both indices before any
mutation. -/
def add_row [Zero α] [Add α] [Mul α] (m : Mat α) (r1 r2 : Nat) (scalar : α) :
    Mat α × Option MErr :=
  if r1 ≥ m.rows ∨ r2 ≥ m.rows then (m, some .outOfRange)
  else (addRowCore m r1 r2 scalar, none)

/-- The pivot search of `rref_stats` (Matrix.hpp:605-607):
`while (i < m.rows() && m.at(i, c) == T{}) ++i;` — returns the first row index
`i` (starting at the given one) whose entry in column `c` is non-zero, or
`m.rows` when the scanned tail of the column is all zero.  `fuel` bounds the
iterations; callers pass `m.rows`, which always suffices. -/
def findPivot [Zero α] [DecidableEq α] : Nat → Mat α → Nat → Nat → Nat
  | 0, _, i, _ => i
  | fuel + 1, m, i, c =>
    if i < m.rows ∧ entry m i c = 0 then findPivot fuel m (i + 1) c else i

/-- The elimination sweep of `rref_stats` (Matrix.hpp:630-636): for every row
index from `i` upward, skipping the pivot row `r`, when the entry `f` in
column `c` is non-zero perform `add_row(r, row_idx, -f)`.  `fuel` bounds the
iterations; callers pass `m.rows` with `i = 0`. -/
def elimGo [Zero α] [Add α] [Mul α] [Neg α] [DecidableEq α] :
    Nat → Mat α → Nat → Nat → Nat → Mat α
  | 0, m, _, _, _ => m
  | fuel + 1, m, r, c, i =>
    if i < m.rows then
      elimGo fuel
        (if i = r then m
         else if entry m i c = 0 then m
         else addRowCore m r i (-(entry m i c))) r c (i + 1)
    else m

/-- The pivot loop of `Matrix::rref_stats` (Matrix.hpp:590-642).  State:
current matrix, pivot-row cursor `r`, pivot-column cursor `c`, swap counter,
scale-product accumulator.  One iteration: exit when `r ≥ rows` (the `for`
condition) or `c ≥ cols` (the `break`); otherwise search column `c` from row
`r` down for a pivot; if none, advance `c` and retry the same `r`
(`++c; --r; continue;`); otherwise swap the pivot row up (counting the swap),
normalize a non-unit pivot by scaling its row with `T{1} / pivot` while
multiplying the accumulator by the pivot, eliminate the pivot column from all
other rows, and advance both cursors.  `fuel` bounds the iterations; since
every iteration advances `c`, `cols - c` always suffices (proved below). -/
def rrefGo [Field α] [DecidableEq α] :
    Nat → Mat α → Nat → Nat → Nat → α → Mat α × Nat × α
  | 0, m, _, _, swaps, sp => (m, swaps, sp)
  | fuel + 1, m, r, c, swaps, sp =>
    if r < m.rows ∧ c < m.cols then
      let i := findPivot m.rows m r c
      if i = m.rows then rrefGo fuel m r (c + 1) swaps sp
      else
        let m1 := if i ≠ r then swapRowsCore m i r else m
        let swaps1 := if i ≠ r then swaps + 1 else swaps
        let pv := entry m1 r c
        let m2 := if pv ≠ 1 then scaleRowCore m1 r (1 / pv) else m1
        let sp1 := if pv ≠ 1 then sp * pv else sp
        let m3 := elimGo m2.rows m2 r c 0
        rrefGo fuel m3 (r + 1) (c + 1) swaps1 sp1
    else (m, swaps, sp)

/-- `Matrix::rref_stats` (Matrix.hpp:590-642): runs the pivot loop from
`r = 0`, `c = 0`, `swaps = 0`, `scale_prod = T{1}` on a copy of the matrix. -/
def rref_stats [Field α] [DecidableEq α] (m : Mat α) : Mat α × Nat × α :=
  rrefGo m.cols m 0 0 0 1

/-- `Matrix::rref` (Matrix.hpp:644-648): the matrix component of
`rref_stats`. -/
def rref [Field α] [DecidableEq α] (m : Mat α) : Mat α :=
  (rref_stats m).1

/-- `Matrix::det` (Matrix.hpp:650-672): `std::invalid_argument` for a
non-square matrix; for a 1×1 matrix the sole element `data()[0]` directly;
otherwise the product of the diagonal of the traced-RREF matrix, negated when
the swap count is odd, multiplied by the accumulated scale-product. -/
def det [Field α] [DecidableEq α] (m : Mat α) : Except MErr α :=
  if m.rows ≠ m.cols then .error .invalidArgument
  else if m.rows = 1 then .ok (m.data.getD 0 0)
  else
    let res := rref_stats m
    let d := (List.range m.rows).foldl (fun acc idx => acc * entry res.1 idx idx) 1
    let d := if res.2.1 % 2 = 1 then -d else d
    .ok (d * res.2.2)

end Mat

open Mat (entry swapRowsCore scaleRowCore addRowCore)

variable {α : Type}

/-- Reference pivot search, written from the specification (§4.2 step 2):
"scan rows `i = r..R-1` for the first row whose entry in column `c` is not the
additive identity". -/
def findPivotSpec [Zero α] [DecidableEq α] (R : Nat) (m : Mat α) (r c : Nat) : Option Nat :=
  ((List.range R).drop r).find? (fun i => decide (entry m i c ≠ 0))

/-- Reference elimination step, written from the specification (§4.2 step 6):
"for every other row `i ≠ r` (both above and below), if `m(i,c)` is not the
additive identity, eliminate it via `add_row(r, i, -m(i,c))`". -/
def elimSpec [Zero α] [Add α] [Mul α] [Neg α] [DecidableEq α]
    (R : Nat) (m : Mat α) (r c : Nat) : Mat α :=
  (List.range R).foldl
    (fun acc i =>
      if i = r then acc
      else if entry acc i c = 0 then acc
      else addRowCore acc r i (-(entry acc i c))) m

/-- Reference implementation of the elimination engine, written from the
specification (§4.2): pivot-row cursor `r` and pivot-column cursor `c` over
fixed dimensions `R × C`; an all-zero column advances `c` only ("do not
consume a pivot row"); a pivot found at `i ≠ r` is swapped up and counted; a
non-unit pivot scales its row by `1/pivot` while the accumulator is multiplied
by `pivot` itself; then both cursors advance; the loop terminates when
`r ≥ R` or `c ≥ C`. -/
def rrefSpecLoop [Field α] [DecidableEq α] (R C : Nat) (m : Mat α)
    (r c swaps : Nat) (sp : α) : Mat α × Nat × α :=
  if r ≥ R ∨ c ≥ C then (m, swaps, sp)
  else
    match findPivotSpec R m r c with
    | none => rrefSpecLoop R C m r (c + 1) swaps sp
    | some i =>
      let m1 := if i = r then m else swapRowsCore m i r
      let swaps1 := if i = r then swaps else swaps + 1
      let pivot := entry m1 r c
      let m2 := if pivot = 1 then m1 else scaleRowCore m1 r (1 / pivot)
      let sp1 := if pivot = 1 then sp else sp * pivot
      rrefSpecLoop R C (elimSpec R m2 r c) (r + 1) (c + 1) swaps1 sp1
termination_by C - c
decreasing_by all_goals omega

/-- Reference traced elimination from the specification's algorithm, started
like the source: cursors at zero, no swaps, unit scale-product. -/
def rrefSpecStats [Field α] [DecidableEq α] (m : Mat α) : Mat α × Nat × α :=
  rrefSpecLoop m.rows m.cols m 0 0 0 1

namespace Mat

/-- Modelled from the spec: `Matrix<T>::solution` is declared and exercised by
`src/tests/test_matrix.cpp` (MatrixTest.Solution) and called from
`src/src/example.cpp`, but its definition is not among the provided sources.
Per §4.4: fail with invalid-argument if `b`'s length does not match the row
count; build the augmented matrix `[A | b]`; run RREF; return an absent (not
error) result when some row has an all-zero left block but a non-zero
augmented entry; otherwise read the solution from the last column. -/
def solution [Field α] [DecidableEq α] (m : Mat α) (b : List α) :
    Except MErr (Option (List α)) :=
  if b.length ≠ m.rows then .error .invalidArgument
  else
    let aug : Mat α := ⟨m.rows, m.cols + 1,
      (List.range (m.rows * (m.cols + 1))).map (fun k =>
        let i := k / (m.cols + 1)
        let j := k % (m.cols + 1)
        if j = m.cols then b.getD i 0 else entry m i j)⟩
    let n := rref aug
    if (List.range m.rows).any (fun i =>
        decide ((∀ j < m.cols, entry n i j = 0) ∧ entry n i m.cols ≠ 0)) then
      .ok none
    else
      .ok (some ((List.range m.rows).map (fun i => entry n i m.cols)))

end Mat

/-- Embedding of the `Rational` scalar (`src/include/lin_alg/Rational.hpp`):
a numerator/denominator pair of machine integers. -/
structure Rational where
  num : Int
  den : Int
deriving DecidableEq

/-- The Euclid loop inside `Rational::reduce` (Rational.hpp:22-27):
`while (b != 0) { int r = a % b; a = b; b = r; }` with C-semantics (truncated)
remainder, returning the final `a`. -/
def gcdLoop (a b : Int) : Int :=
  if b = 0 then a else gcdLoop b (Int.tmod a b)
termination_by b.natAbs
decreasing_by
  rename_i hb
  have habs : (Int.tmod a b).natAbs = a.natAbs % b.natAbs := by
    rcases a with n | n <;> rcases b with k | k <;>
      simp only [Int.tmod, Int.ofNat_eq_coe, Int.natAbs_neg, Int.natAbs_ofNat,
        Int.natAbs_negSucc, Nat.succ_eq_add_one]
  have hbpos : 0 < b.natAbs := Int.natAbs_pos.mpr hb
  have := Nat.mod_lt a.natAbs hbpos
  omega

/-- `Rational::reduce` (Rational.hpp:17-30): orders the pair by `>`, runs the
Euclid loop, and divides both components by its result using C-semantics
(truncated) division. -/
def Rational.reduce (x : Rational) : Rational :=
  let a := if x.num > x.den then x.num else x.den
  let b := if x.num > x.den then x.den else x.num
  let g := gcdLoop a b
  ⟨x.num.tdiv g, x.den.tdiv g⟩

/-- The value produced by the `Rational(int, int)` constructor
(Rational.hpp:45-51) when its zero-denominator check does not fire: the pair
reduced to "simplest" form. -/
def Rational.ctor (n d : Int) : Rational :=
  Rational.reduce ⟨n, d⟩

/-- The checked `Rational(int, int)` constructor: `std::invalid_argument` on a
zero denominator, otherwise the reduced pair. -/
def Rational.mkChecked (n d : Int) : Except MErr Rational :=
  if d = 0 then .error .invalidArgument else .ok (Rational.ctor n d)

/-- The default `Rational()` constructor (Rational.hpp:64): `0 / 1`. -/
def Rational.zeroR : Rational := ⟨0, 1⟩

/-- Unary `Rational::operator-` (Rational.hpp:69-71): the source returns
`Rational(_numerator, _denominator)` — the constructor applied to the
*unnegated* fields. -/
def Rational.negR (x : Rational) : Rational :=
  Rational.ctor x.num x.den

/-- `Rational::operator+` for two rationals (Rational.hpp:280-283):
`Rational(n1*d2 + n2*d1, d1*d2)`. -/
def Rational.addR (x y : Rational) : Rational :=
  Rational.ctor (x.num * y.den + y.num * x.den) (x.den * y.den)

section Predicates

variable {α : Type} [Field α] [DecidableEq α]

/-- Loop invariant of the elimination engine at cursor state `(r, c)` with
pivot-column assignment `p` for the already-processed rows `0..r-1`. -/
structure MatInv (m : Mat α) (r c : Nat) (p : Nat → Nat) : Prop where
  hr : r ≤ m.rows
  hc : c ≤ m.cols
  mono : ∀ i1 i2, i1 < i2 → i2 < r → p i1 < p i2
  lt_c : ∀ i, i < r → p i < c
  pivot_one : ∀ i, i < r → Mat.entry m i (p i) = 1
  col_zero : ∀ i, i < r → ∀ k, k < m.rows → k ≠ i → Mat.entry m k (p i) = 0
  lead_zero : ∀ i, i < r → ∀ j, j < p i → Mat.entry m i j = 0
  below_zero : ∀ i j, r ≤ i → i < m.rows → j < c → Mat.entry m i j = 0

/-- Reduced Row Echelon Form with `rk` pivot rows whose pivot columns are
assigned by `p`: pivots are `1`, strictly right-moving, alone in their
columns, with nothing to their left, and all later rows entirely zero. -/
structure IsRREF (m : Mat α) (rk : Nat) (p : Nat → Nat) : Prop where
  hr : rk ≤ m.rows
  mono : ∀ i1 i2, i1 < i2 → i2 < rk → p i1 < p i2
  lt_cols : ∀ i, i < rk → p i < m.cols
  pivot_one : ∀ i, i < rk → Mat.entry m i (p i) = 1
  col_zero : ∀ i, i < rk → ∀ k, k < m.rows → k ≠ i → Mat.entry m k (p i) = 0
  lead_zero : ∀ i, i < rk → ∀ j, j < p i → Mat.entry m i j = 0
  bottom : ∀ i, rk ≤ i → i < m.rows → ∀ j, j < m.cols → Mat.entry m i j = 0

end Predicates

/-- A `Mat` viewed as a Mathlib square matrix of size `n`; meaningful when
`m.rows = n = m.cols`. -/
def toSqN {α : Type} [Zero α] (n : Nat) (m : Mat α) : Matrix (Fin n) (Fin n) α :=
  Matrix.of fun i j => Mat.entry m i.val j.val

section Concrete

/-- The 4×4 test matrix of spec §8 scenario 3 and MatrixTest.Determinant_FourByFour. -/
def mat4 : Mat ℚ :=
  ⟨4, 4, [1, -2, 1, 0, 0, 2, -8, 8, 5, 0, -5, 10, 9, -5, -5, 6]⟩

/-- The 3×3 system matrix of spec §8 scenario 5 and MatrixTest.Solution. -/
def matA3 : Mat ℚ :=
  ⟨3, 3, [1, -2, 1, 0, 2, -8, 5, 0, -5]⟩

/-- A singular 2×2 matrix (spec §8 scenario 4) used to exhibit an
inconsistent system. -/
def mat2dep : Mat ℚ :=
  ⟨2, 2, [1, 2, 2, 4]⟩

end Concrete

/-! ## Basic facts and easy claims -/

section Easy

variable {α : Type}

/-- C5 counterexample.  The spec's scenario "Matrix(2,2,{0,1,2,3}) column-major
reading at (0,0)=0,(1,0)=1,(0,1)=2,(1,1)=3" is false on the code: the
flat-list constructor stores the initializer row-major (Matrix.hpp:18-20,
confirmed by MatrixTest.ConstructsFromFlatInitializer_RowMajorOrder), so
`at(1,0)` is `2`, not `1`. -/
theorem c5_column_major_false :
    ¬ (((Mat.mk_flat 2 2 [0, 1, 2, 3] : Except MErr (Mat ℤ)).bind
        (fun m => Mat.at_ m 0 0) = .ok 0) ∧
      ((Mat.mk_flat 2 2 [0, 1, 2, 3] : Except MErr (Mat ℤ)).bind
        (fun m => Mat.at_ m 1 0) = .ok 1) ∧
      ((Mat.mk_flat 2 2 [0, 1, 2, 3] : Except MErr (Mat ℤ)).bind
        (fun m => Mat.at_ m 0 1) = .ok 2) ∧
      ((Mat.mk_flat 2 2 [0, 1, 2, 3] : Except MErr (Mat ℤ)).bind
        (fun m => Mat.at_ m 1 1) = .ok 3)) := by
  decide

/-- C5 amended: `Matrix(2,2,{0,1,2,3})` stores its flat initializer in
row-major order, so `at(0,0)=0`, `at(0,1)=1`, `at(1,0)=2`, `at(1,1)=3`. -/
theorem c5_row_major :
    ((Mat.mk_flat 2 2 [0, 1, 2, 3] : Except MErr (Mat ℤ)).bind
        (fun m => Mat.at_ m 0 0) = .ok 0) ∧
      ((Mat.mk_flat 2 2 [0, 1, 2, 3] : Except MErr (Mat ℤ)).bind
        (fun m => Mat.at_ m 0 1) = .ok 1) ∧
      ((Mat.mk_flat 2 2 [0, 1, 2, 3] : Except MErr (Mat ℤ)).bind
        (fun m => Mat.at_ m 1 0) = .ok 2) ∧
      ((Mat.mk_flat 2 2 [0, 1, 2, 3] : Except MErr (Mat ℤ)).bind
        (fun m => Mat.at_ m 1 1) = .ok 3) := by
  decide

/-- C10: evaluation of `Matrix::operator==` at the input on which any
instantiation of `Matrix::operator!=` fails to compile (its body is
`!(*this == *other)`, and the unary dereference of the reference parameter
`other` has no overload).  A correct `!=` would have to return `false` here,
but the member as written has no behaviour at all. -/
theorem c10_matEq_eval :
    Mat.matEq (⟨1, 1, [0]⟩ : Mat ℤ) (⟨1, 1, [0]⟩ : Mat ℤ) = true := by
  decide

/-- C3: `Rational::operator-` returns `Rational(_numerator, _denominator)` —
the fields are not negated — so for `r = Rational(1,1)` the sum `(-r) + r`
evaluates to `2/1`, not to the additive identity `0/1` that the elimination
engine's `add_row(r, i, -f)` calls rely on. -/
theorem c3_neg_not_additive_inverse :
    Rational.addR (Rational.negR (Rational.ctor 1 1)) (Rational.ctor 1 1) = ⟨2, 1⟩ ∧
      (⟨2, 1⟩ : Rational) ≠ Rational.zeroR := by
  with_unfolding_all decide

end Easy

section ErrorClaims

variable {α : Type} [Field α] [DecidableEq α]

/-- C7: `A + B` fails with invalid-argument exactly when the dimensions
differ, and `A * B` fails with invalid-argument exactly when `A`'s column
count differs from `B`'s row count.  In the functional embedding a failing
call produces the error and nothing else — no partial result exists and the
operands are untouched values. -/
theorem c7_arith_errors (a b : Mat α) :
    (Mat.matAdd a b = .error .invalidArgument ↔ (a.rows ≠ b.rows ∨ a.cols ≠ b.cols)) ∧
      (Mat.matMul a b = .error .invalidArgument ↔ a.cols ≠ b.rows) := by
  constructor
  · rw [Mat.matAdd]
    split <;> simp_all
  · rw [Mat.matMul]
    split <;> simp_all

/-- C7 witness at concrete mismatched and matched inputs. -/
theorem c7_arith_errors_witness :
    (Mat.matAdd (⟨2, 2, [1, 2, 3, 4]⟩ : Mat ℚ) ⟨1, 2, [5, 6]⟩ =
        .error .invalidArgument ↔
      ((2 : Nat) ≠ 1 ∨ (2 : Nat) ≠ 2)) ∧
      (Mat.matMul (⟨2, 2, [1, 2, 3, 4]⟩ : Mat ℚ) ⟨1, 2, [5, 6]⟩ =
          .error .invalidArgument ↔ (2 : Nat) ≠ 1) :=
  c7_arith_errors ⟨2, 2, [1, 2, 3, 4]⟩ ⟨1, 2, [5, 6]⟩

/-- C8: each row primitive fails with out-of-range exactly when some supplied
row index is at least the row count, and a failing call returns the matrix
unchanged (the index validation precedes any mutation, so the failing pair is
literally `(m, some outOfRange)`). -/
theorem c8_row_op_errors (m : Mat α) (r1 r2 r : Nat) (k : α) :
    (Mat.swap_rows m r1 r2 = (m, some .outOfRange) ↔
        (r1 ≥ m.rows ∨ r2 ≥ m.rows)) ∧
      (Mat.scale_row m r k = (m, some .outOfRange) ↔ r ≥ m.rows) ∧
      (Mat.add_row m r1 r2 k = (m, some .outOfRange) ↔
        (r1 ≥ m.rows ∨ r2 ≥ m.rows)) := by
  refine ⟨?_, ?_, ?_⟩
  · rw [Mat.swap_rows]
    split <;> simp_all
  · rw [Mat.scale_row]
    split <;> simp_all
  · rw [Mat.add_row]
    split <;> simp_all

/-- C8 witness at concrete in-range and out-of-range indices. -/
theorem c8_row_op_errors_witness :
    (Mat.swap_rows (⟨2, 2, [1, 2, 3, 4]⟩ : Mat ℚ) 0 5 =
        ((⟨2, 2, [1, 2, 3, 4]⟩ : Mat ℚ), some .outOfRange) ↔
      ((0 : Nat) ≥ 2 ∨ (5 : Nat) ≥ 2)) ∧
      (Mat.scale_row (⟨2, 2, [1, 2, 3, 4]⟩ : Mat ℚ) 0 (7 : ℚ) =
          ((⟨2, 2, [1, 2, 3, 4]⟩ : Mat ℚ), some .outOfRange) ↔ (0 : Nat) ≥ 2) ∧
      (Mat.add_row (⟨2, 2, [1, 2, 3, 4]⟩ : Mat ℚ) 0 5 (7 : ℚ) =
          ((⟨2, 2, [1, 2, 3, 4]⟩ : Mat ℚ), some .outOfRange) ↔
        ((0 : Nat) ≥ 2 ∨ (5 : Nat) ≥ 2)) :=
  c8_row_op_errors ⟨2, 2, [1, 2, 3, 4]⟩ 0 5 0 7

end ErrorClaims

/-- C4: `solution(b)` fails with invalid-argument when `b`'s length does not
match the row count; the consistent uniquely-solvable test system
`solve({{1,-2,1},{0,2,-8},{5,0,-5}}, {0,8,10})` yields `{1,0,-1}`; an
inconsistent system yields an absent (non-error) result. -/
theorem c4_solution :
    (∀ (β : Type) [inst1 : Field β] [inst2 : DecidableEq β] (m : Mat β) (b : List β),
        b.length ≠ m.rows → Mat.solution m b = .error .invalidArgument) ∧
      Mat.solution matA3 [0, 8, 10] = .ok (some [1, 0, -1]) ∧
      Mat.solution mat2dep [1, 1] = .ok none := by
  refine ⟨?_, ?_, ?_⟩
  · intro β inst1 inst2 m b hb
    rw [Mat.solution, if_pos hb]
  · with_unfolding_all decide
  · with_unfolding_all decide

/-- C4 witness: the mismatch branch at the concrete input of
MatrixTest.Solution_MismatchedSizes_Throws. -/
theorem c4_solution_witness :
    Mat.solution matA3 [0, 8] = .error .invalidArgument :=
  c4_solution.1 ℚ matA3 [0, 8] (by decide)

/-! ## Dimension preservation and termination (C9) -/

namespace Mat

variable {α : Type}

theorem rows_swapRowsCore [Zero α] (m : Mat α) (r1 r2 : Nat) :
    (swapRowsCore m r1 r2).rows = m.rows := rfl

theorem cols_swapRowsCore [Zero α] (m : Mat α) (r1 r2 : Nat) :
    (swapRowsCore m r1 r2).cols = m.cols := rfl

theorem rows_scaleRowCore [Zero α] [Mul α] (m : Mat α) (r : Nat) (k : α) :
    (scaleRowCore m r k).rows = m.rows := rfl

theorem cols_scaleRowCore [Zero α] [Mul α] (m : Mat α) (r : Nat) (k : α) :
    (scaleRowCore m r k).cols = m.cols := rfl

theorem rows_addRowCore [Zero α] [Add α] [Mul α] (m : Mat α) (r1 r2 : Nat) (k : α) :
    (addRowCore m r1 r2 k).rows = m.rows := rfl

theorem cols_addRowCore [Zero α] [Add α] [Mul α] (m : Mat α) (r1 r2 : Nat) (k : α) :
    (addRowCore m r1 r2 k).cols = m.cols := rfl

theorem elimGo_rows [Zero α] [Add α] [Mul α] [Neg α] [DecidableEq α] :
    ∀ (fuel : Nat) (m : Mat α) (r c i : Nat), (elimGo fuel m r c i).rows = m.rows := by
  intro fuel
  induction fuel with
  | zero => intro m r c i; rfl
  | succ f ih =>
    intro m r c i
    rw [elimGo]
    split
    · rw [ih]
      split
      · rfl
      · split <;> rfl
    · rfl

theorem elimGo_cols [Zero α] [Add α] [Mul α] [Neg α] [DecidableEq α] :
    ∀ (fuel : Nat) (m : Mat α) (r c i : Nat), (elimGo fuel m r c i).cols = m.cols := by
  intro fuel
  induction fuel with
  | zero => intro m r c i; rfl
  | succ f ih =>
    intro m r c i
    rw [elimGo]
    split
    · rw [ih]
      split
      · rfl
      · split <;> rfl
    · rfl

theorem rrefGo_rows [Field α] [DecidableEq α] :
    ∀ (fuel : Nat) (m : Mat α) (r c s : Nat) (sp : α),
      (rrefGo fuel m r c s sp).1.rows = m.rows := by
  intro fuel
  induction fuel with
  | zero => intro m r c s sp; rfl
  | succ f ih =>
    intro m r c s sp
    simp only [rrefGo]
    split
    · split
      · exact ih m r (c + 1) s sp
      · simp only [ih, elimGo_rows]
        split <;> split <;> rfl
    · rfl

theorem rrefGo_cols [Field α] [DecidableEq α] :
    ∀ (fuel : Nat) (m : Mat α) (r c s : Nat) (sp : α),
      (rrefGo fuel m r c s sp).1.cols = m.cols := by
  intro fuel
  induction fuel with
  | zero => intro m r c s sp; rfl
  | succ f ih =>
    intro m r c s sp
    simp only [rrefGo]
    split
    · split
      · exact ih m r (c + 1) s sp
      · simp only [ih, elimGo_cols]
        split <;> split <;> rfl
    · rfl

/-- When the column cursor has reached the last column, the loop exits
immediately whatever fuel remains (`if (c >= m.cols()) break;`). -/
theorem rrefGo_exit [Field α] [DecidableEq α] (fuel : Nat) (m : Mat α)
    (r c s : Nat) (sp : α) (h : m.cols ≤ c) :
    rrefGo fuel m r c s sp = (m, s, sp) := by
  cases fuel with
  | zero => rfl
  | succ f =>
    rw [rrefGo, if_neg]
    intro hand
    omega

/-- Fuel irrelevance for the pivot loop: any two iteration bounds that cover
the remaining `cols - c` columns produce the same result, because every
iteration advances the column cursor. -/
theorem rrefGo_fuel_eq [Field α] [DecidableEq α] :
    ∀ (f1 f2 : Nat) (m : Mat α) (r c s : Nat) (sp : α),
      m.cols ≤ c + f1 → m.cols ≤ c + f2 →
      rrefGo f1 m r c s sp = rrefGo f2 m r c s sp := by
  intro f1
  induction f1 with
  | zero =>
    intro f2 m r c s sp h1 h2
    rw [rrefGo_exit f2 m r c s sp (by omega)]
    rfl
  | succ f ih =>
    intro f2 m r c s sp h1 h2
    cases f2 with
    | zero =>
      rw [rrefGo_exit (f + 1) m r c s sp (by omega)]
      rfl
    | succ g =>
      simp only [rrefGo]
      by_cases hg : r < m.rows ∧ c < m.cols
      · rw [if_pos hg, if_pos hg]
        by_cases hp : findPivot m.rows m r c = m.rows
        · rw [if_pos hp, if_pos hp]
          exact ih g m r (c + 1) s sp (by omega) (by omega)
        · rw [if_neg hp, if_neg hp]
          apply ih
          · simp only [elimGo_cols]
            split_ifs <;>
              (try simp only [cols_scaleRowCore, cols_swapRowsCore]) <;> omega
          · simp only [elimGo_cols]
            split_ifs <;>
              (try simp only [cols_scaleRowCore, cols_swapRowsCore]) <;> omega
      · rw [if_neg hg, if_neg hg]

end Mat

/-- C9: the pivot loop of `rref_stats` terminates unconditionally — any
iteration bound covering the column count reproduces `rref_stats` exactly
(every iteration advances the column cursor, which is bounded by the fixed
matrix dimensions) — and therefore `rref` (and with it `det`, a function of
`rref_stats`) is a total function of the input matrix. -/
theorem c9_termination {α : Type} [Field α] [DecidableEq α]
    (m : Mat α) (fuel : Nat) (h : m.cols ≤ fuel) :
    Mat.rrefGo fuel m 0 0 0 1 = Mat.rref_stats m ∧
      Mat.rref m = (Mat.rrefGo fuel m 0 0 0 1).1 := by
  have key : Mat.rrefGo fuel m 0 0 0 1 = Mat.rrefGo m.cols m 0 0 0 1 :=
    Mat.rrefGo_fuel_eq fuel m.cols m 0 0 0 1 (by omega) (by omega)
  exact ⟨key, by rw [Mat.rref, Mat.rref_stats, key]⟩

/-- C9 witness: a concrete bound on a concrete matrix. -/
theorem c9_termination_witness :
    Mat.rrefGo 7 mat2dep 0 0 0 1 = Mat.rref_stats mat2dep ∧
      Mat.rref mat2dep = (Mat.rrefGo 7 mat2dep 0 0 0 1).1 :=
  c9_termination mat2dep 7 (by decide)

/-! ## C2: equivalence of `rref_stats` with the specified algorithm -/

section SpecEquiv

variable {α : Type}

theorem findPivotSpec_some_bounds [Zero α] [DecidableEq α] {R : Nat} {m : Mat α}
    {r c j : Nat} (h : findPivotSpec R m r c = some j) :
    r ≤ j ∧ j < R ∧ entry m j c ≠ 0 := by
  have hmem := List.mem_of_find?_eq_some h
  have hp := List.find?_some h
  have hj : j ∈ List.range R := List.mem_of_mem_drop hmem
  have hjR : j < R := List.mem_range.mp hj
  have hge : r ≤ j := by
    rcases List.mem_iff_getElem.mp hmem with ⟨t, ht, hjeq⟩
    have h2 : ((List.range R).drop r)[t] = r + t := by
      simp [List.getElem_drop, List.getElem_range]
    rw [h2] at hjeq
    omega
  refine ⟨hge, hjR, ?_⟩
  simpa using hp

theorem findPivot_spec_eq [Zero α] [DecidableEq α] :
    ∀ (fuel : Nat) (m : Mat α) (i c : Nat), i ≤ m.rows → m.rows ≤ i + fuel →
      Mat.findPivot fuel m i c = (findPivotSpec m.rows m i c).getD m.rows := by
  intro fuel
  induction fuel with
  | zero =>
    intro m i c hle hfuel
    have : i = m.rows := by omega
    subst this
    rw [Mat.findPivot, findPivotSpec]
    rw [List.drop_of_length_le (by simp)]
    rfl
  | succ f ih =>
    intro m i c hle hfuel
    rw [Mat.findPivot]
    by_cases hi : i < m.rows
    · have hdrop : (List.range m.rows).drop i =
          i :: (List.range m.rows).drop (i + 1) := by
        rw [List.drop_eq_getElem_cons (by simpa using hi)]
        simp
      by_cases hz : entry m i c = 0
      · rw [if_pos ⟨hi, hz⟩, ih m (i + 1) c (by omega) (by omega)]
        rw [findPivotSpec, findPivotSpec, hdrop, List.find?_cons]
        have : (decide (entry m i c ≠ 0)) = false := by simp [hz]
        rw [this]
      · rw [if_neg (by tauto)]
        rw [findPivotSpec, hdrop, List.find?_cons]
        have : (decide (entry m i c ≠ 0)) = true := by simp [hz]
        rw [this]
        rfl
    · have : i = m.rows := by omega
      subst this
      rw [if_neg (by tauto), findPivotSpec]
      rw [List.drop_of_length_le (by simp)]
      rfl

theorem elimGo_spec_eq [Zero α] [Add α] [Mul α] [Neg α] [DecidableEq α] :
    ∀ (fuel : Nat) (m : Mat α) (r c i : Nat), m.rows ≤ i + fuel →
      Mat.elimGo fuel m r c i =
        ((List.range m.rows).drop i).foldl
          (fun acc k =>
            if k = r then acc
            else if entry acc k c = 0 then acc
            else Mat.addRowCore acc r k (-(entry acc k c))) m := by
  intro fuel
  induction fuel with
  | zero =>
    intro m r c i hfuel
    rw [Mat.elimGo, List.drop_of_length_le (by simpa using hfuel)]
    rfl
  | succ f ih =>
    intro m r c i hfuel
    rw [Mat.elimGo]
    by_cases hi : i < m.rows
    · rw [if_pos hi]
      have hdrop : (List.range m.rows).drop i =
          i :: (List.range m.rows).drop (i + 1) := by
        rw [List.drop_eq_getElem_cons (by simpa using hi)]
        simp
      rw [hdrop, List.foldl_cons]
      set m1 := (if i = r then m
         else if entry m i c = 0 then m
         else Mat.addRowCore m r i (-(entry m i c))) with hm1
      have hrows : m1.rows = m.rows := by
        rw [hm1]
        split
        · rfl
        · split <;> rfl
      rw [ih m1 r c (i + 1) (by omega)]
      rw [hrows]
    · rw [if_neg hi, List.drop_of_length_le (by simp; omega)]
      rfl

/-- The elimination sweep of the source, started at row 0 with its standard
fuel, equals the specification's sweep over all rows. -/
theorem elimGo_elimSpec [Zero α] [Add α] [Mul α] [Neg α] [DecidableEq α]
    (m : Mat α) (r c : Nat) :
    Mat.elimGo m.rows m r c 0 = elimSpec m.rows m r c := by
  rw [elimGo_spec_eq m.rows m r c 0 (by omega), elimSpec, List.drop_zero]

end SpecEquiv

section SpecEquivMain

variable {α : Type}

theorem elimSpec_rows [Zero α] [Add α] [Mul α] [Neg α] [DecidableEq α]
    (R : Nat) (m : Mat α) (r c : Nat) : (elimSpec R m r c).rows = m.rows := by
  rw [elimSpec]
  generalize List.range R = l
  induction l generalizing m with
  | nil => rfl
  | cons k l ihl =>
    rw [List.foldl_cons, ihl]
    split
    · rfl
    · split <;> rfl

theorem elimSpec_cols [Zero α] [Add α] [Mul α] [Neg α] [DecidableEq α]
    (R : Nat) (m : Mat α) (r c : Nat) : (elimSpec R m r c).cols = m.cols := by
  rw [elimSpec]
  generalize List.range R = l
  induction l generalizing m with
  | nil => rfl
  | cons k l ihl =>
    rw [List.foldl_cons, ihl]
    split
    · rfl
    · split <;> rfl

theorem rrefGo_specLoop_eq [Field α] [DecidableEq α] :
    ∀ (f : Nat) (m : Mat α) (r c s : Nat) (sp : α), m.cols ≤ c + f →
      Mat.rrefGo f m r c s sp = rrefSpecLoop m.rows m.cols m r c s sp := by
  intro f
  induction f with
  | zero =>
    intro m r c s sp hf
    rw [Mat.rrefGo, rrefSpecLoop, if_pos (Or.inr (by omega))]
  | succ f ih =>
    intro m r c s sp hf
    by_cases hg : r < m.rows ∧ c < m.cols
    · have hfp := findPivot_spec_eq m.rows m r c (le_of_lt hg.1) (by omega)
      rw [rrefSpecLoop, if_neg (by omega)]
      simp only [Mat.rrefGo]
      rw [if_pos hg, hfp]
      cases hspec : findPivotSpec m.rows m r c with
      | none =>
        simp only [hspec, Option.getD_none, if_pos rfl]
        exact ih m r (c + 1) s sp (by omega)
      | some j =>
        obtain ⟨hrj, hjR, hnz⟩ := findPivotSpec_some_bounds hspec
        simp only [hspec, Option.getD_some, if_neg (by omega : ¬j = m.rows)]
        simp only [ne_eq, ite_not]
        set m1 := if j = r then m else Mat.swapRowsCore m j r with hm1def
        have hm1rows : m1.rows = m.rows := by
          rw [hm1def]; split <;> rfl
        have hm1cols : m1.cols = m.cols := by
          rw [hm1def]; split <;> rfl
        set pv := entry m1 r c with hpvdef
        set m2 := if pv = 1 then m1 else Mat.scaleRowCore m1 r (1 / pv) with hm2def
        have hm2rows : m2.rows = m.rows := by
          rw [hm2def]; split
          · exact hm1rows
          · rw [Mat.rows_scaleRowCore, hm1rows]
        have hm2cols : m2.cols = m.cols := by
          rw [hm2def]; split
          · exact hm1cols
          · rw [Mat.cols_scaleRowCore, hm1cols]
        rw [elimGo_elimSpec m2 r c, hm2rows]
        have hsc : (elimSpec m.rows m2 r c).cols ≤ (c + 1) + f := by
          rw [elimSpec_cols, hm2cols]; omega
        rw [ih (elimSpec m.rows m2 r c) (r + 1) (c + 1) _ _ hsc]
        rw [elimSpec_rows, elimSpec_cols, hm2rows, hm2cols]
    · rw [Mat.rrefGo, if_neg hg, rrefSpecLoop, if_pos (by omega)]

end SpecEquivMain

/-- C2: `rref_stats` coincides with the reference implementation of the
specified column-sweep algorithm (`rrefSpecStats`, written from §4.2): in
particular an all-zero pivot column only advances the column cursor while the
pivot row is retried, and a non-unit pivot scales its row by `1/pivot` while
the scale-product accumulator is multiplied by the pivot value itself. -/
theorem c2_rref_stats_spec_equiv {α : Type} [Field α] [DecidableEq α] (m : Mat α) :
    Mat.rref_stats m = rrefSpecStats m := by
  rw [Mat.rref_stats, rrefSpecStats]
  exact rrefGo_specLoop_eq m.cols m 0 0 0 1 (by omega)

/-! ## Pointwise characterization of the row primitives -/

namespace Mat

variable {α : Type}

theorem index_lt {R C i j : Nat} (hi : i < R) (hj : j < C) : i * C + j < R * C :=
  calc i * C + j < i * C + C := by omega
    _ = (i + 1) * C := by ring
    _ ≤ R * C := Nat.mul_le_mul_right C hi

theorem rowcol_div {C r c : Nat} (hc : c < C) : (r * C + c) / C = r := by
  rw [Nat.mul_comm, Nat.add_comm, Nat.add_mul_div_left _ _ (by omega : 0 < C),
    Nat.div_eq_of_lt hc]
  omega

theorem rowcol_mod {C r c : Nat} (hc : c < C) : (r * C + c) % C = c := by
  rw [Nat.mul_comm, Nat.add_comm, Nat.add_mul_mod_self_left, Nat.mod_eq_of_lt hc]

theorem getD_map_range {β : Type} (f : Nat → β) (d : β) {N k : Nat} (hk : k < N) :
    ((List.range N).map f).getD k d = f k := by
  rw [List.getD_eq_getElem?_getD, List.getElem?_map, List.getElem?_range hk]
  rfl

theorem entry_swapRowsCore [Zero α] (m : Mat α) (r1 r2 i j : Nat)
    (hi : i < m.rows) (hj : j < m.cols) :
    entry (swapRowsCore m r1 r2) i j =
      if i = r1 then entry m r2 j
      else if i = r2 then entry m r1 j
      else entry m i j := by
  show ((List.range (m.rows * m.cols)).map _).getD (i * m.cols + j) 0 = _
  rw [getD_map_range _ _ (index_lt hi hj)]
  simp only [rowcol_div hj, rowcol_mod hj]

theorem entry_scaleRowCore [Zero α] [Mul α] (m : Mat α) (r : Nat) (k : α)
    {i j : Nat} (hi : i < m.rows) (hj : j < m.cols) :
    entry (scaleRowCore m r k) i j =
      if i = r then entry m i j * k else entry m i j := by
  show ((List.range (m.rows * m.cols)).map _).getD (i * m.cols + j) 0 = _
  rw [getD_map_range _ _ (index_lt hi hj)]
  simp only [rowcol_div hj, rowcol_mod hj]

theorem entry_addRowCore [Zero α] [Add α] [Mul α] (m : Mat α) (r1 r2 : Nat) (k : α)
    {i j : Nat} (hi : i < m.rows) (hj : j < m.cols) :
    entry (addRowCore m r1 r2 k) i j =
      if i = r2 then entry m i j + k * entry m r1 j else entry m i j := by
  show ((List.range (m.rows * m.cols)).map _).getD (i * m.cols + j) 0 = _
  rw [getD_map_range _ _ (index_lt hi hj)]
  simp only [rowcol_div hj, rowcol_mod hj]

end Mat

/-! ## Pivot search facts -/

namespace Mat

variable {α : Type}

theorem findPivot_ge [Zero α] [DecidableEq α] :
    ∀ (fuel : Nat) (m : Mat α) (i c : Nat), i ≤ findPivot fuel m i c := by
  intro fuel
  induction fuel with
  | zero => intro m i c; exact Nat.le_refl i
  | succ f ih =>
    intro m i c
    rw [findPivot]
    split
    · have := ih m (i + 1) c
      omega
    · exact Nat.le_refl i

theorem findPivot_le_rows [Zero α] [DecidableEq α] :
    ∀ (fuel : Nat) (m : Mat α) (i c : Nat), i ≤ m.rows →
      findPivot fuel m i c ≤ m.rows := by
  intro fuel
  induction fuel with
  | zero => intro m i c h; exact h
  | succ f ih =>
    intro m i c h
    rw [findPivot]
    split
    · rename_i hcond
      exact ih m (i + 1) c (by omega)
    · exact h

theorem findPivot_zeros [Zero α] [DecidableEq α] :
    ∀ (fuel : Nat) (m : Mat α) (i c t : Nat), i ≤ t → t < findPivot fuel m i c →
      entry m t c = 0 := by
  intro fuel
  induction fuel with
  | zero =>
    intro m i c t hit ht
    rw [findPivot] at ht
    omega
  | succ f ih =>
    intro m i c t hit ht
    rw [findPivot] at ht
    by_cases hcond : i < m.rows ∧ entry m i c = 0
    · rw [if_pos hcond] at ht
      by_cases hti : t = i
      · rw [hti]; exact hcond.2
      · exact ih m (i + 1) c t (by omega) ht
    · rw [if_neg hcond] at ht
      omega

theorem findPivot_nonzero [Zero α] [DecidableEq α] :
    ∀ (fuel : Nat) (m : Mat α) (i c : Nat), m.rows ≤ i + fuel →
      findPivot fuel m i c < m.rows → entry m (findPivot fuel m i c) c ≠ 0 := by
  intro fuel
  induction fuel with
  | zero =>
    intro m i c hfuel hlt
    rw [findPivot] at hlt
    omega
  | succ f ih =>
    intro m i c hfuel hlt
    rw [findPivot] at hlt ⊢
    by_cases hcond : i < m.rows ∧ entry m i c = 0
    · rw [if_pos hcond] at hlt ⊢
      exact ih m (i + 1) c (by omega) hlt
    · rw [if_neg hcond] at hlt ⊢
      intro hz
      exact hcond ⟨hlt, hz⟩

end Mat

/-! ## Pointwise characterization of the elimination sweep -/

namespace Mat

variable {α : Type}

theorem entry_elimGo [Ring α] [DecidableEq α] :
    ∀ (fuel : Nat) (m : Mat α) (r c i k j : Nat), m.rows ≤ i + fuel →
      k < m.rows → j < m.cols → c < m.cols → r < m.rows →
      entry (elimGo fuel m r c i) k j =
        if k = r ∨ k < i then entry m k j
        else entry m k j + (-(entry m k c)) * entry m r j := by
  intro fuel
  induction fuel with
  | zero =>
    intro m r c i k j hfuel hk hj hc hr
    rw [elimGo, if_pos (Or.inr (by omega))]
  | succ f ih =>
    intro m r c i k j hfuel hk hj hc hr
    rw [elimGo]
    by_cases hi : i < m.rows
    · rw [if_pos hi]
      by_cases hir : i = r
      · rw [if_pos hir]
        rw [ih m r c (i + 1) k j (by omega) hk hj hc hr]
        by_cases hcase : k = r ∨ k < i
        · rw [if_pos hcase, if_pos (by omega)]
        · rw [if_neg hcase, if_neg (by omega)]
      · rw [if_neg hir]
        by_cases hz : entry m i c = 0
        · rw [if_pos hz]
          rw [ih m r c (i + 1) k j (by omega) hk hj hc hr]
          by_cases hcase : k = r ∨ k < i
          · rw [if_pos hcase, if_pos (by omega)]
          · by_cases hki : k = i
            · subst hki
              rw [if_pos (Or.inr (by omega)), if_neg hcase, hz]
              simp
            · rw [if_neg (by omega), if_neg hcase]
        · rw [if_neg hz]
          have hrows : (addRowCore m r i (-(entry m i c))).rows = m.rows := rfl
          have hcols : (addRowCore m r i (-(entry m i c))).cols = m.cols := rfl
          rw [ih (addRowCore m r i (-(entry m i c))) r c (i + 1) k j
            (by rw [hrows]; omega) (by rw [hrows]; exact hk) (by rw [hcols]; exact hj)
            (by rw [hcols]; exact hc) (by rw [hrows]; exact hr)]
          by_cases hcase : k = r ∨ k < i
          · have hki : ¬ k = i := by omega
            rw [if_pos (by omega), entry_addRowCore m r i _ hk hj, if_neg hki,
              if_pos hcase]
          · by_cases hki : k = i
            · subst hki
              rw [if_pos (by omega), entry_addRowCore m r k _ hk hj, if_pos rfl,
                if_neg hcase]
            · rw [if_neg (by omega), if_neg hcase]
              rw [entry_addRowCore m r i _ hk hj, if_neg hki]
              rw [entry_addRowCore m r i _ hk hc, if_neg hki]
              rw [entry_addRowCore m r i _ hr hj, if_neg (by omega : ¬r = i)]
    · rw [if_neg hi, if_pos (Or.inr (by omega))]

end Mat

/-! ## A reduced matrix is a fixed point of the pivot loop -/

namespace Mat

variable {α : Type}

theorem findPivot_all_zero [Zero α] [DecidableEq α] :
    ∀ (fuel : Nat) (m : Mat α) (i c : Nat), i ≤ m.rows → m.rows ≤ i + fuel →
      (∀ t, i ≤ t → t < m.rows → entry m t c = 0) →
      findPivot fuel m i c = m.rows := by
  intro fuel
  induction fuel with
  | zero =>
    intro m i c hle hfuel hz
    rw [findPivot]
    omega
  | succ f ih =>
    intro m i c hle hfuel hz
    rw [findPivot]
    by_cases hi : i < m.rows
    · rw [if_pos ⟨hi, hz i (Nat.le_refl i) hi⟩]
      exact ih m (i + 1) c (by omega) (by omega) (fun t ht1 ht2 => hz t (by omega) ht2)
    · rw [if_neg (by tauto)]
      omega

theorem findPivot_stop [Zero α] [DecidableEq α]
    (fuel : Nat) (m : Mat α) (i c : Nat) (h : ¬(i < m.rows ∧ entry m i c = 0)) :
    findPivot fuel m i c = i := by
  cases fuel with
  | zero => rfl
  | succ f => rw [findPivot, if_neg h]

theorem elimGo_id [Zero α] [Add α] [Mul α] [Neg α] [DecidableEq α] :
    ∀ (fuel : Nat) (m : Mat α) (r c i : Nat),
      (∀ k, k < m.rows → k ≠ r → entry m k c = 0) →
      elimGo fuel m r c i = m := by
  intro fuel
  induction fuel with
  | zero => intro m r c i h; rfl
  | succ f ih =>
    intro m r c i h
    rw [elimGo]
    by_cases hi : i < m.rows
    · rw [if_pos hi]
      by_cases hir : i = r
      · rw [if_pos hir]
        exact ih m r c (i + 1) h
      · rw [if_neg hir, if_pos (h i hi hir)]
        exact ih m r c (i + 1) h
    · rw [if_neg hi]

/-- Running the pivot loop on a matrix already in Reduced Row Echelon Form,
with cursors positioned consistently with its pivot structure, changes
nothing: no swap, no scaling and no row addition is ever performed. -/
theorem rrefGo_fix [Field α] [DecidableEq α] :
    ∀ (fuel : Nat) (N : Mat α) (rk : Nat) (q : Nat → Nat) (r c s : Nat) (sp : α),
      IsRREF N rk q → r ≤ rk → (∀ i, i < r → q i < c) → (r < rk → c ≤ q r) →
      rrefGo fuel N r c s sp = (N, s, sp) := by
  intro fuel
  induction fuel with
  | zero => intro N rk q r c s sp _ _ _ _; rfl
  | succ f ih =>
    intro N rk q r c s sp hrref hrk hqc hcq
    simp only [rrefGo]
    by_cases hg : r < N.rows ∧ c < N.cols
    · rw [if_pos hg]
      by_cases hskip : r = rk ∨ c < q r
      · have hcolzero : ∀ t, r ≤ t → t < N.rows → entry N t c = 0 := by
          intro t hrt htN
          by_cases htrk : t < rk
          · apply hrref.lead_zero t htrk
            rcases hskip with hrow | hcol
            · omega
            · rcases Nat.eq_or_lt_of_le hrt with heq | hlt
              · rw [← heq]
                omega
              · have hmono := hrref.mono r t hlt htrk
                omega
          · exact hrref.bottom t (by omega) htN c hg.2
        have hfp : findPivot N.rows N r c = N.rows :=
          findPivot_all_zero N.rows N r c (by omega) (by omega) hcolzero
        rw [hfp, if_pos rfl]
        apply ih N rk q r (c + 1) s sp hrref hrk
        · intro i hi
          have := hqc i hi
          omega
        · intro hr2
          have := hcq hr2
          rcases hskip with hrow | hcol
          · omega
          · omega
      · push_neg at hskip
        obtain ⟨hrlt, hceq⟩ : r < rk ∧ c = q r := by
          have := hcq
          rcases Nat.lt_or_ge r rk with h1 | h1
          · exact ⟨h1, by have := this h1; omega⟩
          · omega
        have hone : entry N r c = 1 := by
          rw [hceq]; exact hrref.pivot_one r hrlt
        have hfp : findPivot N.rows N r c = r := by
          apply findPivot_stop
          intro hand
          rw [hone] at hand
          exact one_ne_zero hand.2
        have h1 : ¬(r ≠ r) := by simp
        rw [hfp, if_neg (show ¬r = N.rows by omega), if_neg h1, if_neg h1]
        have h2 : ¬(entry N r c ≠ 1) := by rw [hone]; simp
        rw [if_neg h2, if_neg h2]
        have hz : ∀ k, k < N.rows → k ≠ r → entry N k c = 0 := by
          intro k hk hkr
          rw [hceq]
          exact hrref.col_zero r hrlt k hk hkr
        rw [elimGo_id N.rows N r c 0 hz]
        apply ih N rk q (r + 1) (c + 1) s sp hrref (by omega)
        · intro i hi
          by_cases hir : i = r
          · rw [hir]; omega
          · have := hqc i (by omega)
            omega
        · intro hr2
          have := hrref.mono r (r + 1) (by omega) hr2
          omega
    · rw [if_neg hg]

end Mat

/-! ## The pivot loop establishes Reduced Row Echelon Form -/

namespace Mat

variable {α : Type}

/-- Running the pivot loop from a state satisfying the loop invariant yields a
matrix in Reduced Row Echelon Form. -/
theorem rrefGo_establishes_rref [Field α] [DecidableEq α] :
    ∀ (fuel : Nat) (m : Mat α) (r c s : Nat) (sp : α) (p : Nat → Nat),
      m.cols ≤ c + fuel → MatInv m r c p →
      ∃ rk q, IsRREF (rrefGo fuel m r c s sp).1 rk q := by
  intro fuel
  induction fuel with
  | zero =>
    intro m r c s sp p hfuel hinv
    show ∃ rk q, IsRREF m rk q
    refine ⟨r, p, ?_, ?_, ?_, ?_, ?_, ?_, ?_⟩
    · exact hinv.hr
    · exact hinv.mono
    · intro i hi
      have := hinv.lt_c i hi
      have := hinv.hc
      omega
    · exact hinv.pivot_one
    · exact hinv.col_zero
    · exact hinv.lead_zero
    · intro i hri hirow j hj
      exact hinv.below_zero i j hri hirow (by omega)
  | succ f ih =>
    intro m r c s sp p hfuel hinv
    simp only [rrefGo]
    by_cases hg : r < m.rows ∧ c < m.cols
    case neg =>
      rw [if_neg hg]
      show ∃ rk q, IsRREF m rk q
      refine ⟨r, p, ?_, ?_, ?_, ?_, ?_, ?_, ?_⟩
      · exact hinv.hr
      · exact hinv.mono
      · intro i hi
        have := hinv.lt_c i hi
        have := hinv.hc
        omega
      · exact hinv.pivot_one
      · exact hinv.col_zero
      · exact hinv.lead_zero
      · intro i hri hirow j hj
        by_cases hrows : r < m.rows
        · have hcge : ¬ c < m.cols := fun hc2 => hg ⟨hrows, hc2⟩
          exact hinv.below_zero i j hri hirow (by omega)
        · omega
    case pos =>
      rw [if_pos hg]
      by_cases hfp : findPivot m.rows m r c = m.rows
      · rw [if_pos hfp]
        apply ih m r (c + 1) s sp p (by omega)
        refine ⟨hinv.hr, by omega, hinv.mono, ?_, hinv.pivot_one, hinv.col_zero,
          hinv.lead_zero, ?_⟩
        · intro i hi
          have := hinv.lt_c i hi
          omega
        · intro i j hri hirow hj
          by_cases hjc : j < c
          · exact hinv.below_zero i j hri hirow hjc
          · have hjc2 : j = c := by omega
            subst hjc2
            exact findPivot_zeros m.rows m r j i hri (by rw [hfp]; exact hirow)
      · rw [if_neg hfp]
        have hi0r : r ≤ findPivot m.rows m r c := findPivot_ge m.rows m r c
        have hi0le : findPivot m.rows m r c ≤ m.rows :=
          findPivot_le_rows m.rows m r c (le_of_lt hg.1)
        have hi0lt : findPivot m.rows m r c < m.rows := by omega
        have hnz : entry m (findPivot m.rows m r c) c ≠ 0 :=
          findPivot_nonzero m.rows m r c (by omega) hi0lt
        generalize hi0def : findPivot m.rows m r c = i0 at *
        set m1 := if i0 ≠ r then swapRowsCore m i0 r else m with hm1def
        have hm1rows : m1.rows = m.rows := by
          rw [hm1def]; split <;> rfl
        have hm1cols : m1.cols = m.cols := by
          rw [hm1def]; split <;> rfl
        have hE1 : ∀ k j, k < m.rows → j < m.cols →
            entry m1 k j = if k = r then entry m i0 j
              else if k = i0 then entry m r j else entry m k j := by
          intro k j hk hj
          rw [hm1def]
          by_cases hir : i0 ≠ r
          · rw [if_pos hir, entry_swapRowsCore m i0 r k j hk hj]
            split_ifs <;> first | rfl | omega
          · rw [if_neg hir]
            have hir2 : i0 = r := by omega
            split_ifs <;> first | rfl | omega | (rename_i h1; rw [h1, hir2])
        set pv := entry m1 r c with hpvdef
        have hpv_eq : pv = entry m i0 c := by
          rw [hpvdef, hE1 r c hg.1 hg.2, if_pos rfl]
        have hpv_nz : pv ≠ 0 := by rw [hpv_eq]; exact hnz
        set m2 := if pv ≠ 1 then scaleRowCore m1 r (1 / pv) else m1 with hm2def
        have hm2rows : m2.rows = m.rows := by
          rw [hm2def]; split
          · rw [rows_scaleRowCore, hm1rows]
          · exact hm1rows
        have hm2cols : m2.cols = m.cols := by
          rw [hm2def]; split
          · rw [cols_scaleRowCore, hm1cols]
          · exact hm1cols
        have hE2 : ∀ k j, k < m.rows → j < m.cols →
            entry m2 k j = if k = r then entry m1 k j * (1 / pv) else entry m1 k j := by
          intro k j hk hj
          rw [hm2def]
          by_cases h1 : pv ≠ 1
          · rw [if_pos h1,
              entry_scaleRowCore m1 r (1 / pv) (hm1rows ▸ hk) (hm1cols ▸ hj)]
          · rw [if_neg h1]
            have hpv1 : pv = 1 := by
              by_contra hcon
              exact h1 hcon
            rw [hpv1]
            norm_num
        have hE2rc : entry m2 r c = 1 := by
          rw [hE2 r c hg.1 hg.2, if_pos rfl, ← hpvdef, mul_one_div, div_self hpv_nz]
        have hm2_rowr_zero : ∀ j, j < c → entry m2 r j = 0 := by
          intro j hj
          have hjcols : j < m.cols := by omega
          rw [hE2 r j hg.1 hjcols, if_pos rfl, hE1 r j hg.1 hjcols, if_pos rfl,
            hinv.below_zero i0 j hi0r hi0lt hj, zero_mul]
        have hE3 : ∀ k j, k < m.rows → j < m.cols →
            entry (elimGo m2.rows m2 r c 0) k j =
              if k = r then entry m2 r j
              else entry m2 k j + (-(entry m2 k c)) * entry m2 r j := by
          intro k j hk hj
          rw [entry_elimGo m2.rows m2 r c 0 k j (by omega)
            (hm2rows ▸ hk) (hm2cols ▸ hj) (hm2cols ▸ hg.2) (hm2rows ▸ hg.1)]
          by_cases hkr : k = r
          · rw [if_pos (Or.inl hkr), if_pos hkr, hkr]
          · rw [if_neg (by omega), if_neg hkr]
        have hm3rows : (elimGo m2.rows m2 r c 0).rows = m.rows := by
          rw [elimGo_rows, hm2rows]
        have hm3cols : (elimGo m2.rows m2 r c 0).cols = m.cols := by
          rw [elimGo_cols, hm2cols]
        apply ih (elimGo m2.rows m2 r c 0) (r + 1) (c + 1) _ _
          (fun x => if x = r then c else p x) (by rw [hm3cols]; omega)
        refine ⟨?_, ?_, ?_, ?_, ?_, ?_, ?_, ?_⟩
        · rw [hm3rows]; omega
        · rw [hm3cols]; omega
        · intro i1 i2 h12 h2r
          by_cases h2 : i2 = r
          · rw [if_pos h2, if_neg (by omega)]
            exact hinv.lt_c i1 (by omega)
          · rw [if_neg h2, if_neg (by omega)]
            exact hinv.mono i1 i2 h12 (by omega)
        · intro i hi
          by_cases hirr : i = r
          · rw [if_pos hirr]; omega
          · rw [if_neg hirr]
            have := hinv.lt_c i (by omega)
            omega
        · intro i hi
          by_cases hirr : i = r
          · subst hirr
            rw [if_pos rfl, hE3 i c hg.1 hg.2, if_pos rfl, hE2rc]
          · rw [if_neg hirr]
            have hiltr : i < r := by omega
            have hpc : p i < c := hinv.lt_c i hiltr
            have hpcols : p i < m.cols := by omega
            rw [hE3 i (p i) (by omega) hpcols, if_neg hirr,
              hE2 i (p i) (by omega) hpcols, if_neg hirr,
              hE1 i (p i) (by omega) hpcols, if_neg hirr, if_neg (by omega),
              hinv.pivot_one i hiltr, hm2_rowr_zero (p i) hpc]
            ring
        · intro i hi k hk hki
          rw [hm3rows] at hk
          by_cases hirr : i = r
          · subst hirr
            rw [if_pos rfl, hE3 k c hk hg.2, if_neg (by omega), hE2rc]
            ring
          · rw [if_neg hirr]
            have hiltr : i < r := by omega
            have hpc : p i < c := hinv.lt_c i hiltr
            have hpcols : p i < m.cols := by omega
            by_cases hkr : k = r
            · subst hkr
              rw [hE3 k (p i) hk hpcols, if_pos rfl, hm2_rowr_zero (p i) hpc]
            · rw [hE3 k (p i) hk hpcols, if_neg hkr,
                hE2 k (p i) hk hpcols, if_neg hkr,
                hE1 k (p i) hk hpcols, hm2_rowr_zero (p i) hpc]
              have hfirst : (if k = r then entry m i0 (p i)
                  else if k = i0 then entry m r (p i) else entry m k (p i)) = 0 := by
                rw [if_neg hkr]
                by_cases hki0 : k = i0
                · rw [if_pos hki0]
                  exact hinv.col_zero i hiltr r hg.1 (by omega)
                · rw [if_neg hki0]
                  exact hinv.col_zero i hiltr k hk hki
              rw [hfirst]
              ring
        · intro i hi j hj
          by_cases hirr : i = r
          · subst hirr
            rw [if_pos rfl] at hj
            have hjcols : j < m.cols := by omega
            rw [hE3 i j hg.1 hjcols, if_pos rfl, hm2_rowr_zero j hj]
          · rw [if_neg hirr] at hj
            have hiltr : i < r := by omega
            have hpc : p i < c := hinv.lt_c i hiltr
            have hjcols : j < m.cols := by omega
            rw [hE3 i j (by omega) hjcols, if_neg hirr,
              hE2 i j (by omega) hjcols, if_neg hirr,
              hE1 i j (by omega) hjcols, if_neg hirr, if_neg (by omega),
              hinv.lead_zero i hiltr j hj, hm2_rowr_zero j (by omega)]
            ring
        · intro k j hrk hkrows hj
          rw [hm3rows] at hkrows
          have hkr : ¬ k = r := by omega
          have hjcols : j < m.cols := by omega
          rw [hE3 k j hkrows hjcols, if_neg hkr]
          by_cases hjc : j = c
          · subst hjc
            rw [hE2rc]
            ring
          · have hjc2 : j < c := by omega
            have hsecond : entry m2 r j = 0 := hm2_rowr_zero j hjc2
            have hfirst : entry m2 k j = 0 := by
              rw [hE2 k j hkrows hjcols, if_neg hkr,
                hE1 k j hkrows hjcols, if_neg hkr]
              by_cases hki0 : k = i0
              · rw [if_pos hki0]
                exact hinv.below_zero r j (Nat.le_refl r) hg.1 hjc2
              · rw [if_neg hki0]
                exact hinv.below_zero k j (by omega) hkrows hjc2
            rw [hfirst, hsecond]
            ring

end Mat

/-- C6: Reduced Row Echelon Form is idempotent — `rref(rref(M)) == rref(M)`
for every matrix, both as structural equality and through the library's
`operator==`. -/
theorem c6_rref_idempotent {α : Type} [Field α] [DecidableEq α] (m : Mat α) :
    Mat.rref (Mat.rref m) = Mat.rref m ∧
      Mat.matEq (Mat.rref (Mat.rref m)) (Mat.rref m) = true := by
  have hinv0 : MatInv m 0 0 (fun _ => 0) := by
    refine ⟨by omega, by omega, ?_, ?_, ?_, ?_, ?_, ?_⟩ <;>
      intro i <;> intros <;> omega
  obtain ⟨rk, q, hrref⟩ :=
    Mat.rrefGo_establishes_rref m.cols m 0 0 0 1 (fun _ => 0) (by omega) hinv0
  have hfix : Mat.rref (Mat.rref m) = Mat.rref m := by
    show (Mat.rrefGo (Mat.rref m).cols (Mat.rref m) 0 0 0 1).1 = Mat.rref m
    rw [Mat.rrefGo_fix (Mat.rref m).cols (Mat.rref m) rk q 0 0 0 1 hrref
      (by omega) (by omega) (fun _ => by omega)]
  exact ⟨hfix, by rw [hfix]; simp [Mat.matEq]⟩

/-! ## Determinant bookkeeping (C1) -/

section Det

variable {α : Type}

theorem toSqN_swapRowsCore [Zero α] {n : Nat} (mm : Mat α) (i0 r : Nat)
    (hrows : mm.rows = n) (hcols : mm.cols = n) (hi0 : i0 < n) (hr : r < n) :
    toSqN n (Mat.swapRowsCore mm i0 r) =
      (toSqN n mm).submatrix (Equiv.swap ⟨i0, hi0⟩ ⟨r, hr⟩) id := by
  ext i j
  show entry (Mat.swapRowsCore mm i0 r) i.val j.val =
    entry mm ((Equiv.swap (⟨i0, hi0⟩ : Fin n) ⟨r, hr⟩ i)).val j.val
  rw [Mat.entry_swapRowsCore mm i0 r i.val j.val
    (by rw [hrows]; exact i.isLt) (by rw [hcols]; exact j.isLt)]
  rcases i with ⟨iv, hiv⟩
  simp only [Equiv.swap_apply_def, Fin.mk.injEq, Fin.ext_iff]
  split_ifs <;> rfl

theorem toSqN_scaleRowCore [Zero α] [Mul α] {n : Nat} (mm : Mat α) (r : Nat) (k : α)
    (hrows : mm.rows = n) (hcols : mm.cols = n) (hr : r < n) :
    toSqN n (Mat.scaleRowCore mm r k) =
      Matrix.updateRow (toSqN n mm) ⟨r, hr⟩ (fun j => entry mm r j.val * k) := by
  ext i j
  show entry (Mat.scaleRowCore mm r k) i.val j.val = _
  rw [Mat.entry_scaleRowCore mm r k (by rw [hrows]; exact i.isLt)
    (by rw [hcols]; exact j.isLt)]
  by_cases hir : i.val = r
  · have : i = (⟨r, hr⟩ : Fin n) := Fin.ext hir
    subst this
    rw [if_pos rfl, Matrix.updateRow_self]
  · rw [if_neg hir, Matrix.updateRow_ne (fun hcon => hir (by rw [hcon]))]
    rfl

theorem toSqN_addRowCore [Zero α] [Add α] [Mul α] {n : Nat} (mm : Mat α)
    (r1 r2 : Nat) (k : α)
    (hrows : mm.rows = n) (hcols : mm.cols = n) (hr1 : r1 < n) (hr2 : r2 < n) :
    toSqN n (Mat.addRowCore mm r1 r2 k) =
      Matrix.updateRow (toSqN n mm) ⟨r2, hr2⟩
        (fun j => entry mm r2 j.val + k * entry mm r1 j.val) := by
  ext i j
  show entry (Mat.addRowCore mm r1 r2 k) i.val j.val = _
  rw [Mat.entry_addRowCore mm r1 r2 k (by rw [hrows]; exact i.isLt)
    (by rw [hcols]; exact j.isLt)]
  by_cases hir : i.val = r2
  · have : i = (⟨r2, hr2⟩ : Fin n) := Fin.ext hir
    subst this
    rw [if_pos rfl, Matrix.updateRow_self]
  · rw [if_neg hir, Matrix.updateRow_ne (fun hcon => hir (by rw [hcon]))]
    rfl

end Det

section DetSteps

variable {α : Type} [Field α]

theorem det_toSqN_swap {n : Nat} (mm : Mat α) (i0 r : Nat)
    (hrows : mm.rows = n) (hcols : mm.cols = n) (hi0 : i0 < n) (hr : r < n)
    (hir : i0 ≠ r) :
    Matrix.det (toSqN n (Mat.swapRowsCore mm i0 r)) =
      -Matrix.det (toSqN n mm) := by
  rw [toSqN_swapRowsCore mm i0 r hrows hcols hi0 hr, Matrix.det_permute]
  rw [Equiv.Perm.sign_swap (by simp [Fin.ext_iff]; omega)]
  simp

theorem det_toSqN_scale {n : Nat} (mm : Mat α) (r : Nat) (k : α)
    (hrows : mm.rows = n) (hcols : mm.cols = n) (hr : r < n) :
    Matrix.det (toSqN n (Mat.scaleRowCore mm r k)) =
      k * Matrix.det (toSqN n mm) := by
  rw [toSqN_scaleRowCore mm r k hrows hcols hr]
  have hfun : (fun j : Fin n => entry mm r j.val * k) =
      k • (toSqN n mm) ⟨r, hr⟩ := by
    funext j
    simp [toSqN, mul_comm]
  rw [hfun, Matrix.det_updateRow_smul, Matrix.updateRow_eq_self]

theorem det_toSqN_add {n : Nat} (mm : Mat α) (r1 r2 : Nat) (k : α)
    (hrows : mm.rows = n) (hcols : mm.cols = n) (hr1 : r1 < n) (hr2 : r2 < n)
    (hir : r2 ≠ r1) :
    Matrix.det (toSqN n (Mat.addRowCore mm r1 r2 k)) =
      Matrix.det (toSqN n mm) := by
  rw [toSqN_addRowCore mm r1 r2 k hrows hcols hr1 hr2]
  have hfun : (fun j : Fin n => entry mm r2 j.val + k * entry mm r1 j.val) =
      (toSqN n mm) ⟨r2, hr2⟩ + k • (toSqN n mm) ⟨r1, hr1⟩ := by
    funext j
    simp [toSqN]
  rw [hfun, Matrix.det_updateRow_add_smul_self _ (by simp [Fin.ext_iff]; omega) k]

theorem det_elimGo [DecidableEq α] {n : Nat} :
    ∀ (fuel : Nat) (mm : Mat α) (r c i : Nat), mm.rows = n → mm.cols = n →
      r < n →
      Matrix.det (toSqN n (Mat.elimGo fuel mm r c i)) =
        Matrix.det (toSqN n mm) := by
  intro fuel
  induction fuel with
  | zero => intro mm r c i _ _ _; rfl
  | succ f ih =>
    intro mm r c i hrows hcols hr
    rw [Mat.elimGo]
    by_cases hi : i < mm.rows
    · rw [if_pos hi]
      by_cases hirr : i = r
      · rw [if_pos hirr]
        exact ih mm r c (i + 1) hrows hcols hr
      · rw [if_neg hirr]
        by_cases hz : entry mm i c = 0
        · rw [if_pos hz]
          exact ih mm r c (i + 1) hrows hcols hr
        · rw [if_neg hz]
          rw [ih (Mat.addRowCore mm r i (-(entry mm i c))) r c (i + 1)
            (by rw [Mat.rows_addRowCore, hrows]) (by rw [Mat.cols_addRowCore, hcols]) hr]
          exact det_toSqN_add mm r i (-(entry mm i c)) hrows hcols hr
            (by omega) hirr
    · rw [if_neg hi]

end DetSteps

section DetInvariant

variable {α : Type} [Field α] [DecidableEq α]

/-- The determinant bookkeeping invariant of the traced elimination: the
quantity `(-1)^swaps * scale_prod * det(current)` never changes. -/
theorem rrefGo_det_invariant {n : Nat} :
    ∀ (fuel : Nat) (mm : Mat α) (r c s : Nat) (sp : α),
      mm.rows = n → mm.cols = n →
      (-1 : α) ^ (Mat.rrefGo fuel mm r c s sp).2.1 *
          (Mat.rrefGo fuel mm r c s sp).2.2 *
          Matrix.det (toSqN n (Mat.rrefGo fuel mm r c s sp).1) =
        (-1 : α) ^ s * sp * Matrix.det (toSqN n mm) := by
  intro fuel
  induction fuel with
  | zero => intro mm r c s sp _ _; rfl
  | succ f ih =>
    intro mm r c s sp hrows hcols
    simp only [Mat.rrefGo]
    by_cases hg : r < mm.rows ∧ c < mm.cols
    case neg =>
      rw [if_neg hg]
    case pos =>
      rw [if_pos hg]
      by_cases hfp : Mat.findPivot mm.rows mm r c = mm.rows
      · rw [if_pos hfp]
        exact ih mm r (c + 1) s sp hrows hcols
      · rw [if_neg hfp]
        have hi0r : r ≤ Mat.findPivot mm.rows mm r c := Mat.findPivot_ge mm.rows mm r c
        have hi0le : Mat.findPivot mm.rows mm r c ≤ mm.rows :=
          Mat.findPivot_le_rows mm.rows mm r c (le_of_lt hg.1)
        have hi0lt : Mat.findPivot mm.rows mm r c < mm.rows := by omega
        have hnz : entry mm (Mat.findPivot mm.rows mm r c) c ≠ 0 :=
          Mat.findPivot_nonzero mm.rows mm r c (by omega) hi0lt
        generalize hi0def : Mat.findPivot mm.rows mm r c = i0 at *
        rw [ih _ (r + 1) (c + 1) _ _ ?hr3 ?hc3]
        case hr3 =>
          rw [Mat.elimGo_rows]
          split_ifs <;>
            simp [Mat.rows_scaleRowCore, Mat.rows_swapRowsCore, hrows]
        case hc3 =>
          rw [Mat.elimGo_cols]
          split_ifs <;>
            simp [Mat.cols_scaleRowCore, Mat.cols_swapRowsCore, hcols]
        rw [det_elimGo _ _ _ _ _ ?er3 ?ec3 ?erlt]
        case er3 =>
          split_ifs <;>
            simp [Mat.rows_scaleRowCore, Mat.rows_swapRowsCore, hrows]
        case ec3 =>
          split_ifs <;>
            simp [Mat.cols_scaleRowCore, Mat.cols_swapRowsCore, hcols]
        case erlt => rw [← hrows]; exact hg.1
        split_ifs with h1 h2 h3
        · -- swap performed, pivot scaled
          have hpveq : entry (Mat.swapRowsCore mm i0 r) r c = entry mm i0 c := by
            rw [Mat.entry_swapRowsCore mm i0 r r c hg.1 hg.2, if_neg (by omega),
              if_pos rfl]
          have hpv_nz : entry (Mat.swapRowsCore mm i0 r) r c ≠ 0 := by
            rw [hpveq]; exact hnz
          rw [det_toSqN_scale (Mat.swapRowsCore mm i0 r) r _
            (by rw [Mat.rows_swapRowsCore, hrows]) (by rw [Mat.cols_swapRowsCore, hcols])
            (by omega)]
          rw [det_toSqN_swap mm i0 r hrows hcols (by omega) (by omega) h1]
          rw [pow_succ]
          field_simp
          ring
        · -- swap performed, pivot already 1
          rw [det_toSqN_swap mm i0 r hrows hcols (by omega) (by omega) h1]
          rw [pow_succ]
          ring
        · -- no swap, pivot scaled
          have hi0req : i0 = r := by omega
          have hpv_nz : entry mm r c ≠ 0 := by rw [← hi0req]; exact hnz
          rw [det_toSqN_scale mm r _ hrows hcols (by omega)]
          field_simp
          ring
        · -- no swap, pivot already 1
          rfl

end DetInvariant

section DetFinal

variable {α : Type} [Field α] [DecidableEq α]

theorem IsRREF.le_pivot {N : Mat α} {rk : Nat} {q : Nat → Nat}
    (h : IsRREF N rk q) : ∀ i, i < rk → i ≤ q i := by
  intro i
  induction i with
  | zero => intro _; omega
  | succ t iht =>
    intro hlt
    have h1 := iht (by omega)
    have h2 := h.mono t (t + 1) (by omega) hlt
    omega

/-- A square matrix in Reduced Row Echelon Form is upper triangular. -/
theorem IsRREF.blockTriangular {N : Mat α} {rk : Nat} {q : Nat → Nat} {n : Nat}
    (h : IsRREF N rk q) (hrows : N.rows = n) (hcols : N.cols = n) :
    Matrix.BlockTriangular (toSqN n N) id := by
  intro i j hij
  have hij2 : (j : Nat) < (i : Nat) := hij
  show entry N i.val j.val = 0
  by_cases hirk : i.val < rk
  · apply h.lead_zero i.val hirk
    have := h.le_pivot i.val hirk
    omega
  · exact h.bottom i.val (by omega) (by rw [hrows]; exact i.isLt) j.val
      (by rw [hcols]; exact j.isLt)

theorem foldl_mul_entry_diag (N : Mat α) :
    ∀ (R : Nat) (a : α),
      (List.range R).foldl (fun acc idx => acc * entry N idx idx) a =
        a * ∏ i : Fin R, entry N i.val i.val := by
  intro R
  induction R with
  | zero => intro a; simp
  | succ R ihR =>
    intro a
    rw [List.range_succ, List.foldl_append, ihR, Fin.prod_univ_castSucc]
    simp [mul_assoc]

theorem if_parity_eq (S : Nat) (x : α) :
    (if S % 2 = 1 then -x else x) = (-1 : α) ^ S * x := by
  by_cases h : S % 2 = 1
  · rw [if_pos h, Odd.neg_one_pow (Nat.odd_iff.mpr h)]
    ring
  · rw [if_neg h, Even.neg_one_pow (Nat.even_iff.mpr (by omega))]
    ring

/-- `Matrix::det` computes the mathematical determinant of any square matrix
over a field. -/
theorem det_eq_mathlib (m : Mat α) (hsq : m.rows = m.cols) :
    Mat.det m = .ok (Matrix.det (toSqN m.rows m)) := by
  obtain ⟨R, C, d⟩ := m
  simp only at hsq
  subst hsq
  rw [Mat.det]
  rw [if_neg (by simp)]
  by_cases h1 : R = 1
  · subst h1
    rw [if_pos rfl]
    have : Matrix.det (toSqN 1 ⟨1, 1, d⟩) = entry (⟨1, 1, d⟩ : Mat α) 0 0 :=
      Matrix.det_fin_one _
    rw [this]
    show _ = Except.ok (d.getD (0 * 1 + 0) 0)
    norm_num
  · rw [if_neg h1]
    have hinv0 : MatInv (⟨R, R, d⟩ : Mat α) 0 0 (fun _ => 0) := by
      refine ⟨by omega, by omega, ?_, ?_, ?_, ?_, ?_, ?_⟩ <;>
        intro i <;> intros <;> omega
    obtain ⟨rk, q, hrref⟩ :=
      Mat.rrefGo_establishes_rref R (⟨R, R, d⟩ : Mat α) 0 0 0 1 (fun _ => 0)
        (by show R ≤ 0 + R; omega) hinv0
    have hdetinv := rrefGo_det_invariant R (⟨R, R, d⟩ : Mat α) 0 0 0 1 rfl rfl
    have hNrows : (Mat.rrefGo R (⟨R, R, d⟩ : Mat α) 0 0 0 1).1.rows = R :=
      Mat.rrefGo_rows R (⟨R, R, d⟩ : Mat α) 0 0 0 1
    have hNcols : (Mat.rrefGo R (⟨R, R, d⟩ : Mat α) 0 0 0 1).1.cols = R :=
      Mat.rrefGo_cols R (⟨R, R, d⟩ : Mat α) 0 0 0 1
    have htri := hrref.blockTriangular hNrows hNcols
    have hdiag := Matrix.det_of_upperTriangular htri
    have hprod : ∏ i : Fin R,
        entry (Mat.rrefGo R (⟨R, R, d⟩ : Mat α) 0 0 0 1).1 i.val i.val =
        Matrix.det (toSqN R (Mat.rrefGo R (⟨R, R, d⟩ : Mat α) 0 0 0 1).1) := by
      rw [hdiag]
      rfl
    show Except.ok _ = _
    congr 1
    rw [Mat.rref_stats]
    show (if (Mat.rrefGo R (⟨R, R, d⟩ : Mat α) 0 0 0 1).2.1 % 2 = 1 then
        -(List.range R).foldl
          (fun acc idx => acc * entry (Mat.rrefGo R (⟨R, R, d⟩ : Mat α) 0 0 0 1).1 idx idx) 1
      else (List.range R).foldl
          (fun acc idx => acc * entry (Mat.rrefGo R (⟨R, R, d⟩ : Mat α) 0 0 0 1).1 idx idx) 1) *
        (Mat.rrefGo R (⟨R, R, d⟩ : Mat α) 0 0 0 1).2.2 =
      Matrix.det (toSqN R (⟨R, R, d⟩ : Mat α))
    rw [if_parity_eq, foldl_mul_entry_diag, one_mul, hprod]
    rw [pow_zero, one_mul, one_mul] at hdetinv
    linear_combination hdetinv

end DetFinal

/-- C1: for every square matrix over an exact field element type, `det`
returns the mathematical determinant (the 1×1 case reads the sole element
directly; otherwise the traced-RREF diagonal product with swap-parity sign and
the accumulated scale-product reconstructs it); in particular the determinant
of the 4×4 test matrix is `-480`. -/
theorem c1_det_correct :
    (∀ (β : Type) [inst1 : Field β] [inst2 : DecidableEq β] (m : Mat β),
        m.rows = m.cols → Mat.det m = .ok (Matrix.det (toSqN m.rows m))) ∧
      Mat.det mat4 = .ok (-480) := by
  constructor
  · intro β inst1 inst2 m hsq
    exact det_eq_mathlib m hsq
  · with_unfolding_all decide

/-- C1 witness: the general statement applied at a concrete singular square
matrix, with its hypothesis discharged by computation. -/
theorem c1_det_correct_witness :
    Mat.det mat2dep = .ok (Matrix.det (toSqN mat2dep.rows mat2dep)) :=
  c1_det_correct.1 ℚ mat2dep (by decide)
